import Mathlib

/-
Verification development for the two quantum-algorithm tutorial notebooks of
this repository:

* `aqua/simon.ipynb` — Simon's period-finding algorithm.  The notebook's own
  classical reference computation `compute_mask` (pairwise column-collision
  search over the truth table) is embedded directly from the source.  The
  quantum `Simon.run` invocation goes through the external `qiskit.aqua`
  library, whose code is not part of this repository; its behaviour
  (constraint collection, GF(2) solving, classical verification) is modelled
  from the specification.

* `aqua/vqe2iqpe.ipynb` — VQE→IQPE algorithm concatenation.  The notebook only
  configures and calls library components (`VarFormBased`, `IQPE`), so the
  iterative phase-estimation state machine and the state-handoff adapter are
  modelled from the specification.

Truth-table bitmaps are embedded as `List Char` (Python strings), truth-table
columns as `List Char` (Python tuples of characters), and measured vectors for
the period-finding solver as `List Bool`.
-/

namespace SimonTutorial

/-- Fuel-based floor logarithm base 2, embedding the notebook's
`int(np.log2(x))` width computation.  Structurally recursive on the fuel so
that it reduces inside the kernel; `intLog2` supplies the value itself as
fuel, which is always sufficient. -/
def intLog2Aux : Nat → Nat → Nat
  | 0, _ => 0
  | fuel + 1, m => if m ≥ 2 then intLog2Aux fuel (m / 2) + 1 else 0

/-- `intLog2 m` is `int(np.log2(m))` from the source, i.e. the floor of the
base-2 logarithm (and `0` for `m = 0`). -/
def intLog2 (m : Nat) : Nat := intLog2Aux m m

/-- `np.binary_repr(x, width)`: the binary digits of `x`, left-padded with
zeros up to `width` characters. -/
def binary_repr (x width : Nat) : List Char :=
  let s := Nat.toDigits 2 x
  List.replicate (width - s.length) '0' ++ s

/-- The number of tuples produced by Python's `zip(*input_bitmaps)`: the
minimum row length (0 for an empty argument list). -/
def zipLen (input_bitmaps : List (List Char)) : Nat :=
  match input_bitmaps.map List.length with
  | [] => 0
  | l :: ls => ls.foldl min l

/-- `list(zip(*input_bitmaps))`: the list of truth-table columns, column `i`
being the tuple of the `i`-th character of every bitmap. -/
def pyZip (input_bitmaps : List (List Char)) : List (List Char) :=
  (List.range (zipLen input_bitmaps)).map
    (fun i => input_bitmaps.map (fun b => b.getD i ' '))

/-- The index pairs `(i, j)` with `i < j < n`, in the order the nested
`for i ... for j in range(i+1, ...)` loops of `find_pair` visit them. -/
def pairList (n : Nat) : List (Nat × Nat) :=
  (List.range n).flatMap
    (fun i => (List.range' (i + 1) (n - (i + 1))).map (fun j => (i, j)))

/-- The inner `find_pair` closure of `compute_mask`: the first pair of indices
of equal entries of `vals` in nested-loop order, `(0, 0)` when no pair of
entries is equal. -/
def find_pair (vals : List (List Char)) : Nat × Nat :=
  match (pairList vals.length).find?
      (fun p => vals.getD p.1 [] == vals.getD p.2 []) with
  | some p => p
  | none => (0, 0)

/-- `compute_mask` from `aqua/simon.ipynb`: reverse the column list, find the
first colliding pair of (reversed) column indices, and return the binary
representation of their XOR at the input bit-width. -/
def compute_mask (input_bitmaps : List (List Char)) : List Char :=
  let vals := (pyZip input_bitmaps).reverse
  let (k1, k2) := find_pair vals
  binary_repr (k1 ^^^ k2) (intLog2 (input_bitmaps.headD []).length)

/-- Column `x` of the truth table: the tuple of output bits the oracle assigns
to input value `x` (one character per bitmap). -/
def col (input_bitmaps : List (List Char)) (x : Nat) : List Char :=
  input_bitmaps.map (fun b => b.getD x ' ')

/-- The 2-to-1 truth table of the first experiment in `aqua/simon.ipynb`. -/
def bitmaps1 : List (List Char) :=
  [['0','1','1','0','1','0','0','1'],
   ['1','0','0','1','1','0','0','1'],
   ['0','1','1','0','0','1','1','0']]

/-- The 1-to-1 truth table of the last experiment in `aqua/simon.ipynb`. -/
def bitmaps2 : List (List Char) :=
  [['0','0','0','1','1','1','1','0'],
   ['0','1','1','0','0','1','1','0'],
   ['1','0','1','0','1','0','1','0']]

/-! ### Period-finding solver, modelled from the spec

The `Simon` algorithm object invoked by the notebook lives in the external
`qiskit.aqua` library; the definitions below model its classical
post-processing from the specification's description of the
`PeriodFindingSolver`. -/

/-- The all-zero constraint vector of the input bit-width. -/
def zeroVec (n : Nat) : List Bool := List.replicate n false

/-- Addition of constraint vectors over GF(2): componentwise XOR. -/
def gf2Add (a b : List Bool) : List Bool := List.zipWith xor a b

/-- Dot product of two vectors over GF(2). -/
def gf2Dot (a b : List Bool) : Bool := (List.zipWith and a b).foldl xor false

/-- All subset XOR-sums of a list of vectors, seeded with `z`; with `z` the
zero vector this enumerates the GF(2) span of the list. -/
def subsetSums (S : List (List Bool)) (z : List Bool) : List (List Bool) :=
  S.foldr (fun r acc => acc ++ acc.map (gf2Add r)) [z]

/-- Modelled from the spec: the linear-independence test of the
`PeriodFindingSolver`'s constraint collection (spec §4.3, "tested via Gaussian
elimination over GF(2)") — membership of `v` in the GF(2) span of the current
constraint set `S`. -/
def inSpan (n : Nat) (S : List (List Bool)) (v : List Bool) : Bool :=
  decide (v ∈ subsetSums S (zeroVec n))

/-- Modelled from the spec: processing one measured vector in the
`PeriodFindingSolver` loop (spec §4.3): an all-zero vector is discarded, a
vector already in the span of the current constraint set is discarded, and an
independent vector is appended to the set. -/
def processVector (n : Nat) (S : List (List Bool)) (v : List Bool) :
    List (List Bool) :=
  if v = zeroVec n then S
  else if inSpan n S v then S
  else S ++ [v]

/-- Modelled from the spec: one iteration of the constraint-collection loop,
which stops accepting vectors once `bit-width − 1` independent constraints
have been gathered. -/
def collectStep (n : Nat) (S : List (List Bool)) (v : List Bool) :
    List (List Bool) :=
  if S.length = n - 1 then S else processVector n S v

/-- Modelled from the spec: the `OracleConstraintSet` gathered by the
`PeriodFindingSolver` from a trace of measured vectors, processed in order. -/
def collectConstraints (n : Nat) (trace : List (List Bool)) :
    List (List Bool) :=
  trace.foldl (collectStep n) []

/-- The measured vector corresponding to the integer `x`, most-significant bit
first, at bit-width `n`. -/
def natToBits (n x : Nat) : List Bool :=
  (List.range n).map (fun i => x.testBit (n - 1 - i))

/-- The integer value of a bit vector given most-significant bit first. -/
def bitsToNat (s : List Bool) : Nat :=
  s.foldl (fun acc b => 2 * acc + (if b then 1 else 0)) 0

/-- Modelled from the spec: solving the homogeneous GF(2) system of the
collected constraints (spec §4.3).  Row-reduction plus back-substitution is
replaced by a direct search for the first non-zero solution of the system,
which is extensionally the solved mask. -/
def solveMask (n : Nat) (S : List (List Bool)) : List Bool :=
  match (List.range (2 ^ n)).find?
      (fun x => decide (x ≠ 0) &&
        S.all (fun v => gf2Dot v (natToBits n x) == false)) with
  | some x => natToBits n x
  | none => zeroVec n

/-- Modelled from the spec: the classical verification step of the
`PeriodFindingSolver` (spec §2) — a non-zero mask candidate is accepted only
if the truth table is XOR-invariant under it. -/
def verifyMask (input_bitmaps : List (List Char)) (n : Nat)
    (s : List Bool) : Bool :=
  let sv := bitsToNat s
  decide (sv ≠ 0) &&
    (List.range (2 ^ n)).all
      (fun x => col input_bitmaps x == col input_bitmaps (x ^^^ sv))

/-- Render a mask as the character string the notebook compares against. -/
def boolsToChars (s : List Bool) : List Char :=
  s.map (fun b => if b then '1' else '0')

/-- Modelled from the spec: the classical post-processing of the
`PeriodFindingSolver` run (`Simon.run` in the notebook, library code absent
from this repository): collect constraints from the measured trace, report
the all-zero mask when no constraint was found, otherwise solve the GF(2)
system and keep the candidate only if classical verification accepts it. -/
def simonRun (input_bitmaps : List (List Char)) (trace : List (List Bool)) :
    List Char :=
  let n := intLog2 (input_bitmaps.headD []).length
  let S := collectConstraints n trace
  if S.isEmpty then List.replicate n '0'
  else
    let s := solveMask n S
    if verifyMask input_bitmaps n s then boolsToChars s
    else List.replicate n '0'

/-- Parity of the bitwise AND of `y` and `x` over the low `n` bits — the
exponent of `(−1)` in the Hadamard-transform amplitude. -/
def dotNat (n y x : Nat) : Bool :=
  (List.range n).foldl (fun b i => xor b (y.testBit i && x.testBit i)) false

/-- Modelled from the spec: the amplitude (up to normalisation) with which the
input-register value `y` is observed jointly with output value `c` after the
Simon oracle circuit — the signed count `Σ_{x : f(x) = c} (−1)^{y·x}`. -/
def supportAmp (input_bitmaps : List (List Char)) (n y : Nat)
    (c : List Char) : Int :=
  ((List.range (2 ^ n)).filter (fun x => col input_bitmaps x == c)).foldl
    (fun acc x => acc + (if dotNat n y x then -1 else 1)) 0

/-- Modelled from the spec: the support of the `MeasurementBackend` outcome
distribution for the Simon oracle circuit — exactly those `y` that appear
with non-zero amplitude for some output value. -/
def measurementSupport (input_bitmaps : List (List Char)) : List Nat :=
  let n := intLog2 (input_bitmaps.headD []).length
  (List.range (2 ^ n)).filter
    (fun y => (List.range (2 ^ n)).any
      (fun x => supportAmp input_bitmaps n y (col input_bitmaps x) != 0))

/-- Modelled from the spec: a canonical measurement trace — every observable
input-register outcome, in increasing order of value. -/
def canonicalTrace (input_bitmaps : List (List Char)) : List (List Bool) :=
  let n := intLog2 (input_bitmaps.headD []).length
  (measurementSupport input_bitmaps).map (natToBits n)

end SimonTutorial

namespace IqpeTutorial

/-! ### Iterative phase estimator, modelled from the spec

`aqua/vqe2iqpe.ipynb` configures and runs the external `qiskit.aqua` `IQPE`
algorithm (`num_iterations = 6`); the library code is absent from this
repository, so the iterative-bit-estimation state machine is modelled from
the specification (§4.2).  The `MeasurementBackend` is abstracted as a trace:
for each round index `k` it yields the pair of shot counts
`(count of outcome 0, count of outcome 1)` of the single ancilla qubit. -/

/-- Modelled from the spec: majority vote over the ancilla outcome
distribution of one round.  The fold scans outcome `0` before outcome `1` and
replaces the incumbent only on a strictly larger count, so ties resolve to
`0`. -/
def majorityVote (counts : List (Bool × Nat)) : Bool :=
  (counts.foldl (fun best p => if p.2 > best.2 then p else best) (false, 0)).1

/-- The per-round state of the iterative phase estimator: the bits resolved so
far (most-significant first) and the accumulated binary fraction of those
bits, from which the classical phase-correction angle `-π·frac` is derived. -/
structure IqpeState where
  bits : List Bool
  frac : ℚ

/-- Modelled from the spec: one estimation round (spec §4.2).  The round's bit
is resolved by majority vote over the shots reported by the trace at round
index `k`, prepended to the resolved bits, and folded into the accumulated
phase-correction fraction. -/
def iqpeRound (trace : Nat → Nat × Nat) (k : Nat) (st : IqpeState) :
    IqpeState :=
  let c0 := (trace k).1
  let c1 := (trace k).2
  let x := majorityVote [(false, c0), (true, c1)]
  { bits := x :: st.bits,
    frac := ((if x then (1 : ℚ) else 0) + st.frac) / 2 }

/-- Modelled from the spec: the sequential rounds `k, k-1, ..., 1` of the
estimator, each feeding its successor's state. -/
def iqpeIter (trace : Nat → Nat × Nat) : Nat → IqpeState → IqpeState
  | 0, st => st
  | k + 1, st => iqpeIter trace k (iqpeRound trace (k + 1) st)

/-- The configuration surface of the estimator: the iteration count `R` and
the fixed linear time-slice-to-energy mapping determined when the circuits
were built. -/
structure IqpeConfig where
  num_iterations : Nat
  slope : ℚ
  intercept : ℚ

/-- The terminal result of a run: resolved bits (most-significant first), the
fractional phase in `[0,1)`, and the energy estimate. -/
structure IqpeResult where
  bits : List Bool
  phase : ℚ
  energy : ℚ

/-- Modelled from the spec: a complete estimator run — rounds `R` down to `1`
starting from the empty bit list, the final accumulated fraction reported as
the phase, and the energy obtained from the phase by the configured linear
mapping. -/
def iqpeRun (cfg : IqpeConfig) (trace : Nat → Nat × Nat) : IqpeResult :=
  let st := iqpeIter trace cfg.num_iterations ⟨[], 0⟩
  { bits := st.bits,
    phase := st.frac,
    energy := cfg.slope * st.frac + cfg.intercept }

/-- The binary fraction `Σ bit_i · 2^{-i}` of a bit list, most-significant
bit first. -/
def binFrac (bits : List Bool) : ℚ :=
  bits.foldr (fun b acc => ((if b then (1 : ℚ) else 0) + acc) / 2) 0

/-! ### State-handoff adapter, modelled from the spec

The notebook's `VarFormBased(var_form, result_vqe['opt_params'])` call hands
the frozen variational solution to IQPE as an initial-state procedure; the
library class is absent from this repository, so it is modelled from the
specification (§4.1). -/

/-- A pluggable variational form: its expected parameter count and its circuit
constructor (circuits abstracted as opaque gate-code lists). -/
structure VariationalForm where
  num_parameters : Nat
  construct_circuit : List ℚ → List Nat

/-- Modelled from the spec: the error taxonomy of the adapter (spec §7). -/
inductive HandoffError where
  | DimensionMismatch
  deriving DecidableEq

/-- An initial-state procedure: given a qubit register size, emits the
state-preparation circuit. -/
structure StateProcedure where
  construct_circuit : Nat → List Nat

/-- A recorded measurement-backend submission (circuit and shot count). -/
structure BackendCall where
  circuit : List Nat
  shots : Nat

/-- Modelled from the spec: `StateHandoffAdapter.build` (spec §4.1), the
`VarFormBased` construction of the notebook.  Validation is purely local: the
parameter vector's length is checked against the variational form's expected
count, and the returned log of backend submissions is empty in every case.
On success the procedure replays the variational form at the frozen
parameters for any register size. -/
def buildHandoff (vf : VariationalForm) (params : List ℚ) :
    Except HandoffError StateProcedure × List BackendCall :=
  if params.length = vf.num_parameters then
    (Except.ok ⟨fun _ => vf.construct_circuit params⟩, [])
  else
    (Except.error HandoffError.DimensionMismatch, [])

end IqpeTutorial

/-! ## Theorems -/

namespace SimonTutorial

/-- Claim C1: for the 2-to-1 truth table given by the bitmaps `01101001`,
`10011001`, `01100110`, the classical pairwise column-collision search
`compute_mask` recovers the hidden XOR mask `011`, and the period-finding
solver run on the canonical measurement trace recovers the same mask. -/
theorem two_to_one_mask_recovery :
    compute_mask bitmaps1 = ['0', '1', '1'] ∧
    simonRun bitmaps1 (canonicalTrace bitmaps1) = compute_mask bitmaps1 := by
  decide

/-- Claim C2: for the 1-to-1 truth table given by the bitmaps `00011110`,
`01100110`, `10101010`, both `compute_mask` and the period-finding solver run
report the all-zero mask of width 3, the input bit-width. -/
theorem one_to_one_zero_mask :
    compute_mask bitmaps2 = List.replicate 3 '0' ∧
    simonRun bitmaps2 (canonicalTrace bitmaps2) = List.replicate 3 '0' := by
  decide

end SimonTutorial

namespace IqpeTutorial

lemma majorityVote_pair (c0 c1 : Nat) :
    majorityVote [(false, c0), (true, c1)] = decide (c0 < c1) := by
  unfold majorityVote
  simp only [List.foldl]
  split_ifs with h0 h1 h1 <;> (simp; omega)

/-- Claim C5: in every round of the iterative phase estimator, the round's bit
is resolved by majority vote over the shot outcomes, with ties broken toward
0: the resolved bit is 1 exactly when the count of 1-outcomes strictly
exceeds the count of 0-outcomes, and in particular an equal split resolves to
0. -/
theorem round_bit_majority_tie_zero (trace : Nat → Nat × Nat) (k : Nat)
    (st : IqpeState) :
    ((iqpeRound trace k st).bits.head? = some true ↔
      (trace k).1 < (trace k).2) ∧
    ((trace k).1 = (trace k).2 →
      (iqpeRound trace k st).bits.head? = some false) := by
  constructor
  · unfold iqpeRound
    simp [majorityVote_pair]
  · intro h
    unfold iqpeRound
    simp [majorityVote_pair, h]

/-- Witness for C5: a concrete tied round (3 shots each) resolves to bit 0. -/
theorem round_bit_majority_tie_zero_witness :
    (iqpeRound (fun _ => (3, 3)) 1 ⟨[], 0⟩).bits.head? = some false :=
  (round_bit_majority_tie_zero (fun _ => (3, 3)) 1 ⟨[], 0⟩).2 rfl

lemma binFrac_cons (b : Bool) (t : List Bool) :
    binFrac (b :: t) = ((if b then (1 : ℚ) else 0) + binFrac t) / 2 := rfl

lemma binFrac_nonneg (bits : List Bool) : 0 ≤ binFrac bits := by
  induction bits with
  | nil => simp [binFrac]
  | cons b t ih =>
    rw [binFrac_cons]
    have : (0 : ℚ) ≤ (if b then (1 : ℚ) else 0) := by split <;> norm_num
    positivity

lemma binFrac_lt_one (bits : List Bool) : binFrac bits < 1 := by
  induction bits with
  | nil => simp [binFrac]
  | cons b t ih =>
    rw [binFrac_cons]
    have hb : (if b then (1 : ℚ) else 0) ≤ 1 := by split <;> norm_num
    linarith

lemma binFrac_eq_sum (bits : List Bool) :
    binFrac bits = ∑ i ∈ Finset.range bits.length,
      (if bits.getD i false then (1 : ℚ) else 0) / 2 ^ (i + 1) := by
  induction bits with
  | nil => simp [binFrac]
  | cons b t ih =>
    rw [binFrac_cons, List.length_cons, Finset.sum_range_succ']
    simp only [List.getD_cons_succ, List.getD_cons_zero]
    rw [ih]
    have hshift : ∑ x ∈ Finset.range t.length,
        (if t.getD x false then (1 : ℚ) else 0) / 2 ^ (x + 1 + 1) =
        (∑ x ∈ Finset.range t.length,
          (if t.getD x false then (1 : ℚ) else 0) / 2 ^ (x + 1)) / 2 := by
      rw [Finset.sum_div]
      apply Finset.sum_congr rfl
      intro i _
      rw [pow_succ]
      ring
    rw [hshift]
    ring

lemma iqpeIter_spec (trace : Nat → Nat × Nat) :
    ∀ (k : Nat) (st : IqpeState), st.frac = binFrac st.bits →
      (iqpeIter trace k st).bits.length = st.bits.length + k ∧
      (iqpeIter trace k st).frac = binFrac (iqpeIter trace k st).bits := by
  intro k
  induction k with
  | zero => intro st h; exact ⟨rfl, h⟩
  | succ k ih =>
    intro st h
    have hst' : (iqpeRound trace (k + 1) st).frac =
        binFrac (iqpeRound trace (k + 1) st).bits := by
      unfold iqpeRound
      rw [binFrac_cons, h]
    have := ih (iqpeRound trace (k + 1) st) hst'
    refine ⟨?_, (this).2⟩
    have hlen : (iqpeRound trace (k + 1) st).bits.length =
        st.bits.length + 1 := by
      unfold iqpeRound
      rfl
    rw [show iqpeIter trace (k + 1) st =
        iqpeIter trace k (iqpeRound trace (k + 1) st) from rfl, this.1, hlen]
    omega

/-- Claim C6: every run of the iterative phase estimator with iteration count
R resolves exactly R bits, reports as its phase the binary fraction
`Σ bit_i · 2^{-i}` of those bits — a value in `[0, 1)` — and derives the
energy estimate from the phase by the configured linear
time-slice-to-energy mapping. -/
theorem run_length_phase_energy (cfg : IqpeConfig) (trace : Nat → Nat × Nat) :
    (iqpeRun cfg trace).bits.length = cfg.num_iterations ∧
    (iqpeRun cfg trace).phase = ∑ i ∈ Finset.range cfg.num_iterations,
      (if (iqpeRun cfg trace).bits.getD i false then (1 : ℚ) else 0) /
        2 ^ (i + 1) ∧
    0 ≤ (iqpeRun cfg trace).phase ∧ (iqpeRun cfg trace).phase < 1 ∧
    (iqpeRun cfg trace).energy =
      cfg.slope * (iqpeRun cfg trace).phase + cfg.intercept := by
  have h0 : (⟨[], 0⟩ : IqpeState).frac = binFrac (⟨[], 0⟩ : IqpeState).bits :=
    rfl
  have hs := iqpeIter_spec trace cfg.num_iterations ⟨[], 0⟩ h0
  have hlen : (iqpeRun cfg trace).bits.length = cfg.num_iterations := by
    show (iqpeIter trace cfg.num_iterations ⟨[], 0⟩).bits.length = _
    rw [hs.1]
    simp
  refine ⟨hlen, ?_, ?_, ?_, rfl⟩
  · show (iqpeIter trace cfg.num_iterations ⟨[], 0⟩).frac = _
    rw [hs.2, binFrac_eq_sum]
    rw [show (iqpeIter trace cfg.num_iterations ⟨[], 0⟩).bits.length =
        cfg.num_iterations from hlen]
    rfl
  · show 0 ≤ (iqpeIter trace cfg.num_iterations ⟨[], 0⟩).frac
    rw [hs.2]; exact binFrac_nonneg _
  · show (iqpeIter trace cfg.num_iterations ⟨[], 0⟩).frac < 1
    rw [hs.2]; exact binFrac_lt_one _

lemma iqpeIter_congr (t1 t2 : Nat → Nat × Nat) :
    ∀ (k : Nat) (st : IqpeState), (∀ j, 1 ≤ j → j ≤ k → t1 j = t2 j) →
      iqpeIter t1 k st = iqpeIter t2 k st := by
  intro k
  induction k with
  | zero => intro st _; rfl
  | succ k ih =>
    intro st h
    show iqpeIter t1 k (iqpeRound t1 (k + 1) st) =
      iqpeIter t2 k (iqpeRound t2 (k + 1) st)
    have hk : t1 (k + 1) = t2 (k + 1) := h (k + 1) (by omega) (le_refl _)
    have hr : iqpeRound t1 (k + 1) st = iqpeRound t2 (k + 1) st := by
      unfold iqpeRound
      rw [hk]
    rw [hr]
    exact ih _ (fun j h1 h2 => h j h1 (by omega))

/-- Claim C8: the iterative phase estimator is deterministic given a fixed
measurement trace — two runs with the same configuration observing identical
per-round outcome distributions resolve identical bit sequences and report
identical phase and energy. -/
theorem run_deterministic_on_trace (cfg : IqpeConfig)
    (t1 t2 : Nat → Nat × Nat)
    (h : ∀ j, 1 ≤ j → j ≤ cfg.num_iterations → t1 j = t2 j) :
    (iqpeRun cfg t1).bits = (iqpeRun cfg t2).bits ∧
    (iqpeRun cfg t1).phase = (iqpeRun cfg t2).phase ∧
    (iqpeRun cfg t1).energy = (iqpeRun cfg t2).energy := by
  have hiter := iqpeIter_congr t1 t2 cfg.num_iterations ⟨[], 0⟩ h
  unfold iqpeRun
  rw [hiter]
  exact ⟨rfl, rfl, rfl⟩

def traceA : Nat → Nat × Nat := fun k => (k, 2 * k)

def traceB : Nat → Nat × Nat := fun k => if k ≤ 2 then (k, 2 * k) else (9, 0)

/-- Witness for C8: two traces agreeing on rounds 1 and 2 (but not beyond)
give identical two-round runs. -/
theorem run_deterministic_on_trace_witness :
    (iqpeRun ⟨2, 1, 0⟩ traceA).bits = (iqpeRun ⟨2, 1, 0⟩ traceB).bits :=
  (run_deterministic_on_trace ⟨2, 1, 0⟩ traceA traceB
    (by
      intro j h1 h2
      have hj : j ≤ 2 := h2
      simp [traceA, traceB, hj])).1

/-- Claim C9: `StateHandoffAdapter.build` fails with `DimensionMismatch`
exactly when the parameter vector's length differs from the variational
form's expected parameter count; validation is local — the backend-call log
is empty in every case — and on matching lengths construction succeeds,
returning the procedure that replays the variational form at the frozen
parameters. -/
theorem handoff_dimension_check (vf : VariationalForm) (params : List ℚ) :
    ((buildHandoff vf params).1 =
        Except.error HandoffError.DimensionMismatch ↔
      params.length ≠ vf.num_parameters) ∧
    (buildHandoff vf params).2 = [] ∧
    (params.length = vf.num_parameters →
      (buildHandoff vf params).1 =
        Except.ok ⟨fun _ => vf.construct_circuit params⟩) := by
  unfold buildHandoff
  by_cases h : params.length = vf.num_parameters
  · rw [if_pos h]
    refine ⟨?_, rfl, fun _ => rfl⟩
    simp [h]
  · rw [if_neg h]
    exact ⟨by simp [h], rfl, fun hc => absurd hc h⟩

def vf0 : VariationalForm := ⟨2, fun _ => [1, 2]⟩

/-- Witness for C9: a two-parameter variational form with a matching
two-entry parameter vector builds successfully. -/
theorem handoff_dimension_check_witness :
    (buildHandoff vf0 [0, 1]).1 =
      Except.ok ⟨fun _ => vf0.construct_circuit [0, 1]⟩ :=
  (handoff_dimension_check vf0 [0, 1]).2.2 rfl

end IqpeTutorial

namespace SimonTutorial

lemma gf2Add_zeroVec (v : List Bool) : gf2Add v (zeroVec v.length) = v := by
  induction v with
  | nil => rfl
  | cons b t ih =>
    show (xor b false) :: gf2Add t (zeroVec t.length) = b :: t
    rw [Bool.xor_false, ih]

lemma seed_mem_subsetSums (S : List (List Bool)) (z : List Bool) :
    z ∈ subsetSums S z := by
  induction S with
  | nil => exact List.mem_singleton.mpr rfl
  | cons r t ih =>
    exact List.mem_append_left _ ih

lemma mem_subsetSums_of_mem (n : Nat) (S : List (List Bool)) (a : List Bool)
    (hlen : a.length = n) (ha : a ∈ S) : a ∈ subsetSums S (zeroVec n) := by
  induction S with
  | nil => cases ha
  | cons r t ih =>
    rcases List.mem_cons.mp ha with h | h
    · apply List.mem_append_right
      apply List.mem_map.mpr
      refine ⟨zeroVec n, seed_mem_subsetSums t (zeroVec n), ?_⟩
      subst h
      rw [← hlen, gf2Add_zeroVec]
    · exact List.mem_append_left _ (ih h)

lemma inSpan_of_mem (n : Nat) (S : List (List Bool)) (a : List Bool)
    (hlen : a.length = n) (ha : a ∈ S) : inSpan n S a = true :=
  decide_eq_true (mem_subsetSums_of_mem n S a hlen ha)

lemma subsetSums_single (v z : List Bool) :
    subsetSums [v] z = [z, gf2Add v z] := rfl

lemma inSpan_single_eq_false (n : Nat) (v a : List Bool)
    (hv : v.length = n) (haz : a ≠ zeroVec n) (hav : a ≠ v) :
    inSpan n [v] a = false := by
  apply decide_eq_false
  have hvz : gf2Add v (zeroVec n) = v := by
    rw [← hv]; exact gf2Add_zeroVec v
  rw [subsetSums_single, hvz]
  intro hmem
  rcases List.mem_cons.mp hmem with h | h
  · exact haz h
  · exact hav (List.mem_singleton.mp h)

/-- The loop invariant of the constraint-collection state: every retained
vector has the input bit-width and is non-zero, the retained vectors are
pairwise linearly independent over GF(2) (no vector lies in the span of
another), and at most `bit-width − 1` vectors are retained. -/
def constraintInvariant (n : Nat) (S : List (List Bool)) : Prop :=
  (∀ v ∈ S, v.length = n ∧ v ≠ zeroVec n) ∧
  S.Pairwise (fun v w => inSpan n [w] v = false) ∧
  S.length ≤ n - 1

lemma collectStep_preserve (n : Nat) (S : List (List Bool)) (v : List Bool)
    (hv : v.length = n) (h : constraintInvariant n S) :
    constraintInvariant n (collectStep n S v) := by
  unfold collectStep
  by_cases hfull : S.length = n - 1
  · rw [if_pos hfull]; exact h
  rw [if_neg hfull]
  unfold processVector
  by_cases hz : v = zeroVec n
  · rw [if_pos hz]; exact h
  rw [if_neg hz]
  by_cases hsp : inSpan n S v = true
  · simp only [hsp, if_true]; exact h
  simp only [hsp, if_false, Bool.false_eq_true]
  obtain ⟨hmem, hpair, hcard⟩ := h
  refine ⟨?_, ?_, ?_⟩
  · intro w hw
    rcases List.mem_append.mp hw with h' | h'
    · exact hmem w h'
    · rw [List.mem_singleton.mp h']
      exact ⟨hv, hz⟩
  · rw [List.pairwise_append]
    refine ⟨hpair, List.pairwise_singleton _ _, ?_⟩
    intro a ha b hb
    rw [List.mem_singleton.mp hb]
    have hlen := (hmem a ha).1
    have haz := (hmem a ha).2
    have hav : a ≠ v := by
      intro hEq
      apply hsp
      rw [← hEq]
      exact inSpan_of_mem n S a hlen ha
    exact inSpan_single_eq_false n v a hv haz hav
  · rw [List.length_append, List.length_singleton]
    omega

lemma collect_foldl_preserve (n : Nat) :
    ∀ (trace : List (List Bool)) (S : List (List Bool)),
      (∀ v ∈ trace, v.length = n) → constraintInvariant n S →
      constraintInvariant n (trace.foldl (collectStep n) S) := by
  intro trace
  induction trace with
  | nil => intro S _ h; exact h
  | cons v t ih =>
    intro S hall h
    rw [List.foldl_cons]
    exact ih _ (fun w hw => hall w (List.mem_cons_of_mem v hw))
      (collectStep_preserve n S v (hall v (List.mem_cons_self v t)) h)

/-- Claim C7: in every reachable state of the period-finding
constraint-collection loop, the collected constraint set holds only non-zero,
pairwise linearly independent GF(2) vectors and never exceeds
`bit-width − 1` entries; and processing a measured vector that is all-zero
or already in the span of the current set leaves the set (hence its size)
unchanged. -/
theorem constraint_collection_invariant (n : Nat) (trace : List (List Bool))
    (hall : ∀ v ∈ trace, v.length = n) :
    ((∀ v ∈ collectConstraints n trace, v ≠ zeroVec n) ∧
     (collectConstraints n trace).Pairwise
       (fun v w => inSpan n [w] v = false) ∧
     (collectConstraints n trace).length ≤ n - 1) ∧
    (∀ (S : List (List Bool)) (v : List Bool),
      v = zeroVec n ∨ inSpan n S v = true → processVector n S v = S) := by
  constructor
  · have h0 : constraintInvariant n ([] : List (List Bool)) := by
      refine ⟨?_, List.Pairwise.nil, ?_⟩
      · intro v hv; cases hv
      · simp
    have := collect_foldl_preserve n trace [] hall h0
    obtain ⟨hmem, hpair, hcard⟩ := this
    exact ⟨fun v hv => (hmem v hv).2, hpair, hcard⟩
  · intro S v h
    unfold processVector
    rcases h with h | h
    · rw [if_pos h]
    · by_cases hz : v = zeroVec n
      · rw [if_pos hz]
      · rw [if_neg hz]
        simp only [h, if_true]

def trace0 : List (List Bool) :=
  [[false, true, true], [true, false, false], [false, true, true]]

/-- Witness for C7: a concrete three-vector trace at bit-width 3 keeps at most
two constraints, and processing the all-zero vector against the empty set
changes nothing. -/
theorem constraint_collection_invariant_witness :
    (collectConstraints 3 trace0).length ≤ 2 ∧
    processVector 3 [] (zeroVec 3) = [] :=
  ⟨(constraint_collection_invariant 3 trace0 (by decide)).1.2.2,
   (constraint_collection_invariant 3 trace0 (by decide)).2 [] (zeroVec 3)
     (Or.inl rfl)⟩

end SimonTutorial

namespace SimonTutorial

lemma intLog2Aux_two_pow : ∀ (k fuel : Nat), 2 ^ k ≤ fuel →
    intLog2Aux fuel (2 ^ k) = k := by
  intro k
  induction k with
  | zero =>
    intro fuel h
    obtain ⟨f, rfl⟩ : ∃ f, fuel = f + 1 := ⟨fuel - 1, by omega⟩
    show (if (1 : Nat) ≥ 2 then intLog2Aux f (1 / 2) + 1 else 0) = 0
    norm_num
  | succ k ih =>
    intro fuel h
    have hk1 : 1 ≤ 2 ^ k := Nat.one_le_two_pow
    have hpow : 2 ^ (k + 1) = 2 ^ k * 2 := pow_succ 2 k
    obtain ⟨f, rfl⟩ : ∃ f, fuel = f + 1 := ⟨fuel - 1, by omega⟩
    show (if 2 ^ (k + 1) ≥ 2 then intLog2Aux f (2 ^ (k + 1) / 2) + 1
      else 0) = k + 1
    have h2 : 2 ^ (k + 1) ≥ 2 := by omega
    rw [if_pos h2, hpow, Nat.mul_div_cancel _ (by norm_num)]
    rw [ih f (by omega)]

lemma intLog2_two_pow (k : Nat) : intLog2 (2 ^ k) = k :=
  intLog2Aux_two_pow k (2 ^ k) (le_refl _)

lemma testBit_two_pow_sub_one_sub : ∀ (k n i : Nat), i < 2 ^ n →
    (2 ^ n - 1 - i).testBit k = (decide (k < n) && !(i.testBit k)) := by
  intro k
  induction k with
  | zero =>
    intro n i h
    match n with
    | 0 =>
      interval_cases i
      simp
    | m + 1 =>
      have hpow : 2 ^ (m + 1) = 2 ^ m * 2 := pow_succ 2 m
      have hmod : i % 2 < 2 := Nat.mod_lt _ (by norm_num)
      have hdm := Nat.div_add_mod i 2
      have hval : 2 ^ (m + 1) - 1 - i =
          2 * (2 ^ m - 1 - i / 2) + (1 - i % 2) := by
        have h1 : 1 ≤ 2 ^ m := Nat.one_le_two_pow
        have hlt : i / 2 < 2 ^ m := by omega
        omega
      rw [hval, Nat.testBit_zero, Nat.testBit_zero]
      have : (2 * (2 ^ m - 1 - i / 2) + (1 - i % 2)) % 2 = 1 - i % 2 := by
        omega
      rw [this]
      rcases Nat.mod_two_eq_zero_or_one i with h0 | h1
      · rw [h0]; simp
      · rw [h1]; simp
  | succ k ih =>
    intro n i h
    match n with
    | 0 =>
      interval_cases i
      simp
    | m + 1 =>
      have hpow : 2 ^ (m + 1) = 2 ^ m * 2 := pow_succ 2 m
      have hdm := Nat.div_add_mod i 2
      have h1 : 1 ≤ 2 ^ m := Nat.one_le_two_pow
      have hlt : i / 2 < 2 ^ m := by omega
      have hval : (2 ^ (m + 1) - 1 - i) / 2 = 2 ^ m - 1 - i / 2 := by
        omega
      rw [Nat.testBit_succ, Nat.testBit_succ, hval, ih m (i / 2) hlt]
      have hdec : decide (k + 1 < m + 1) = decide (k < m) :=
        decide_eq_decide.mpr Nat.succ_lt_succ_iff
      rw [hdec]

lemma testBit_of_lt_two_pow (i n k : Nat) (h : i < 2 ^ n) (hk : n ≤ k) :
    i.testBit k = false :=
  Nat.testBit_lt_two_pow
    (lt_of_lt_of_le h (Nat.pow_le_pow_right (by norm_num) hk))

lemma xor_complement (n i j : Nat) (hi : i < 2 ^ n) (hj : j < 2 ^ n) :
    (2 ^ n - 1 - i) ^^^ (2 ^ n - 1 - j) = i ^^^ j := by
  apply Nat.eq_of_testBit_eq
  intro k
  rw [Nat.testBit_xor, Nat.testBit_xor,
    testBit_two_pow_sub_one_sub k n i hi,
    testBit_two_pow_sub_one_sub k n j hj]
  by_cases hk : k < n
  · simp [hk]
  · push_neg at hk
    rw [testBit_of_lt_two_pow i n k hi hk,
      testBit_of_lt_two_pow j n k hj hk]
    simp [hk]

end SimonTutorial

namespace SimonTutorial

lemma foldl_min_const : ∀ (ls : List Nat) (N : Nat), (∀ x ∈ ls, x = N) →
    ls.foldl min N = N := by
  intro ls
  induction ls with
  | nil => intro N _; rfl
  | cons a t ih =>
    intro N h
    rw [List.foldl_cons, h a (List.mem_cons_self a t), min_self]
    exact ih N (fun x hx => h x (List.mem_cons_of_mem a hx))

lemma zipLen_eq (input_bitmaps : List (List Char)) (N : Nat)
    (hne : input_bitmaps ≠ []) (hall : ∀ b ∈ input_bitmaps, b.length = N) :
    zipLen input_bitmaps = N := by
  match input_bitmaps, hne with
  | b :: rest, _ =>
    show (rest.map List.length).foldl min b.length = N
    rw [hall b (List.mem_cons_self b rest)]
    apply foldl_min_const
    intro x hx
    obtain ⟨r, hr, hx⟩ := List.mem_map.mp hx
    rw [← hx]
    exact hall r (List.mem_cons_of_mem b hr)

lemma pyZip_length (input_bitmaps : List (List Char)) (N : Nat)
    (hne : input_bitmaps ≠ []) (hall : ∀ b ∈ input_bitmaps, b.length = N) :
    (pyZip input_bitmaps).length = N := by
  unfold pyZip
  rw [List.length_map, List.length_range]
  exact zipLen_eq input_bitmaps N hne hall

lemma pyZip_getD (input_bitmaps : List (List Char)) (N i : Nat)
    (hne : input_bitmaps ≠ []) (hall : ∀ b ∈ input_bitmaps, b.length = N)
    (hi : i < N) :
    (pyZip input_bitmaps).getD i [] = col input_bitmaps i := by
  unfold pyZip
  rw [List.getD_eq_getElem?_getD, List.getElem?_map,
    List.getElem?_range (by rw [zipLen_eq input_bitmaps N hne hall]; exact hi)]
  rfl

lemma vals_getD (input_bitmaps : List (List Char)) (N i : Nat)
    (hne : input_bitmaps ≠ []) (hall : ∀ b ∈ input_bitmaps, b.length = N)
    (hi : i < N) :
    ((pyZip input_bitmaps).reverse).getD i [] =
      col input_bitmaps (N - 1 - i) := by
  have hlen : (pyZip input_bitmaps).length = N :=
    pyZip_length input_bitmaps N hne hall
  rw [List.getD_eq_getElem?_getD,
    List.getElem?_reverse (by rw [hlen]; exact hi), hlen,
    ← List.getD_eq_getElem?_getD]
  exact pyZip_getD input_bitmaps N (N - 1 - i) hne hall (by omega)

lemma mem_pairList (n : Nat) (p : Nat × Nat) (hp : p ∈ pairList n) :
    p.1 < p.2 ∧ p.2 < n := by
  unfold pairList at hp
  obtain ⟨i, hi, hp⟩ := List.mem_flatMap.mp hp
  obtain ⟨j, hj, hp⟩ := List.mem_map.mp hp
  have hij := List.mem_range'_1.mp hj
  have hin := List.mem_range.mp hi
  rw [← hp]
  constructor <;> omega

lemma find?_range'_first (q : Nat → Bool) (s : Nat) :
    ∀ (len a : Nat), a ≤ s → s < a + len → q s = true →
      (∀ j, a ≤ j → j < s → q j = false) →
      (List.range' a len).find? q = some s := by
  intro len
  induction len with
  | zero => intro a h1 h2 _ _; omega
  | succ len ih =>
    intro a h1 h2 hqs hbelow
    rw [List.range'_succ, List.find?_cons]
    by_cases ha : a = s
    · rw [ha, hqs]
    · rw [hbelow a (le_refl a) (by omega)]
      exact ih (a + 1) (by omega) (by omega) hqs
        (fun j h1 h2 => hbelow j (by omega) h2)

lemma find?_pairList_first (pred : Nat × Nat → Bool) (n s : Nat)
    (hs1 : 1 ≤ s) (hsn : s < n) (hps : pred (0, s) = true)
    (hbelow : ∀ j, 1 ≤ j → j < s → pred (0, j) = false) :
    (pairList n).find? pred = some (0, s) := by
  obtain ⟨m, rfl⟩ : ∃ m, n = m + 1 := ⟨n - 1, by omega⟩
  unfold pairList
  rw [List.range_succ_eq_map, List.flatMap_cons, List.find?_append]
  have hfirst : (((List.range' (0 + 1) (m + 1 - (0 + 1))).map
      (fun j => ((0 : Nat), j))).find? pred) = some (0, s) := by
    rw [List.find?_map]
    have : (List.range' (0 + 1) (m + 1 - (0 + 1))).find?
        (pred ∘ fun j => ((0 : Nat), j)) = some s := by
      apply find?_range'_first
      · exact hs1
      · omega
      · exact hps
      · intro j h1 h2
        exact hbelow j h1 h2
    rw [this]
    rfl
  rw [hfirst]
  rfl

lemma compute_mask_eq (input_bitmaps : List (List Char)) :
    compute_mask input_bitmaps =
      binary_repr ((find_pair ((pyZip input_bitmaps).reverse)).1 ^^^
          (find_pair ((pyZip input_bitmaps).reverse)).2)
        (intLog2 (input_bitmaps.headD []).length) := rfl

lemma find_pair_eq_of_find? (vals : List (List Char)) (p : Nat × Nat)
    (h : (pairList vals.length).find?
      (fun q => vals.getD q.1 [] == vals.getD q.2 []) = some p) :
    find_pair vals = p := by
  unfold find_pair
  rw [h]

lemma find_pair_eq_zero_of_none (vals : List (List Char))
    (h : (pairList vals.length).find?
      (fun q => vals.getD q.1 [] == vals.getD q.2 []) = none) :
    find_pair vals = (0, 0) := by
  unfold find_pair
  rw [h]

lemma find_pair_lt (vals : List (List Char)) (h0 : 0 < vals.length) :
    (find_pair vals).1 < vals.length ∧ (find_pair vals).2 < vals.length := by
  unfold find_pair
  cases hf : (pairList vals.length).find?
      (fun q => vals.getD q.1 [] == vals.getD q.2 []) with
  | none => exact ⟨h0, h0⟩
  | some p =>
    have := mem_pairList vals.length p (List.mem_of_find?_eq_some hf)
    show p.1 < vals.length ∧ p.2 < vals.length
    exact ⟨by omega, this.2⟩

end SimonTutorial

namespace SimonTutorial

lemma binary_repr_zero (n : Nat) (hn : 1 ≤ n) :
    binary_repr 0 n = List.replicate n '0' := by
  obtain ⟨m, rfl⟩ : ∃ m, n = m + 1 := ⟨n - 1, by omega⟩
  show List.replicate (m + 1 - (Nat.toDigits 2 0).length) '0' ++
    Nat.toDigits 2 0 = List.replicate (m + 1) '0'
  rw [show Nat.toDigits 2 0 = ['0'] from rfl, List.replicate_succ' m '0']
  rfl

/-- Claim C3: round-trip — for every bit-width `n ≥ 1` and non-zero `n`-bit
mask `s`, if the truth table is a consistent 2-to-1 encoding of `s` (columns
agree exactly when the XOR of their input values is `s`), then the
mask-recovery computation `compute_mask` returns the `n`-bit binary
representation of `s`. -/
theorem compute_mask_roundtrip (n s : Nat) (input_bitmaps : List (List Char))
    (hs0 : s ≠ 0) (hs : s < 2 ^ n) (hne : input_bitmaps ≠ [])
    (hall : ∀ b ∈ input_bitmaps, b.length = 2 ^ n)
    (hcons : ∀ i, i < 2 ^ n → ∀ j, j < 2 ^ n →
      (col input_bitmaps i = col input_bitmaps j ↔ (i ^^^ j = s ∨ i = j))) :
    compute_mask input_bitmaps = binary_repr s n := by
  have hN : 0 < 2 ^ n := Nat.pos_pow_of_pos n (by norm_num)
  have hvlen : ((pyZip input_bitmaps).reverse).length = 2 ^ n := by
    rw [List.length_reverse]; exact pyZip_length _ _ hne hall
  have hp_s : (((pyZip input_bitmaps).reverse).getD 0 [] ==
      ((pyZip input_bitmaps).reverse).getD s []) = true := by
    rw [vals_getD input_bitmaps (2 ^ n) 0 hne hall hN,
      vals_getD input_bitmaps (2 ^ n) s hne hall hs]
    apply beq_iff_eq.mpr
    apply (hcons (2 ^ n - 1 - 0) (by omega) (2 ^ n - 1 - s) (by omega)).mpr
    left
    rw [xor_complement n 0 s hN hs, Nat.zero_xor]
  have hbelow : ∀ j, 1 ≤ j → j < s →
      ((((pyZip input_bitmaps).reverse).getD 0 [] ==
        ((pyZip input_bitmaps).reverse).getD j []) = false) := by
    intro j h1 h2
    rw [vals_getD input_bitmaps (2 ^ n) 0 hne hall hN,
      vals_getD input_bitmaps (2 ^ n) j hne hall (by omega)]
    apply beq_eq_false_iff_ne.mpr
    intro heq
    rcases (hcons (2 ^ n - 1 - 0) (by omega) (2 ^ n - 1 - j)
        (by omega)).mp heq with h | h
    · rw [xor_complement n 0 j hN (by omega), Nat.zero_xor] at h
      omega
    · omega
  have hfp : find_pair ((pyZip input_bitmaps).reverse) = (0, s) := by
    apply find_pair_eq_of_find?
    rw [hvlen]
    exact find?_pairList_first _ (2 ^ n) s (by omega) hs hp_s hbelow
  obtain ⟨b, rest, rfl⟩ : ∃ b rest, input_bitmaps = b :: rest := by
    match input_bitmaps, hne with
    | b :: rest, _ => exact ⟨b, rest, rfl⟩
  rw [compute_mask_eq, hfp]
  show binary_repr (0 ^^^ s) (intLog2 b.length) = binary_repr s n
  rw [Nat.zero_xor, hall b (List.mem_cons_self b rest), intLog2_two_pow]

/-- Witness for C3: the notebook's 2-to-1 table is a consistent encoding of
the mask 3 = `011`, and `compute_mask` recovers exactly that mask. -/
theorem compute_mask_roundtrip_witness :
    compute_mask bitmaps1 = binary_repr 3 3 :=
  compute_mask_roundtrip 3 3 bitmaps1 (by decide) (by decide) (by decide)
    (by decide) (by decide)

/-- Claim C4: when the truth table has no pair of equal columns (the function
is 1-to-1), `find_pair` returns `(0, 0)` — so the XOR is zero — and the
reported mask is the all-zero vector of the input bit-width. -/
theorem compute_mask_no_collision (n : Nat)
    (input_bitmaps : List (List Char)) (hn : 1 ≤ n)
    (hne : input_bitmaps ≠ [])
    (hall : ∀ b ∈ input_bitmaps, b.length = 2 ^ n)
    (hdist : ∀ i, i < 2 ^ n → ∀ j, j < 2 ^ n → i ≠ j →
      col input_bitmaps i ≠ col input_bitmaps j) :
    find_pair ((pyZip input_bitmaps).reverse) = (0, 0) ∧
    compute_mask input_bitmaps = List.replicate n '0' := by
  have hvlen : ((pyZip input_bitmaps).reverse).length = 2 ^ n := by
    rw [List.length_reverse]; exact pyZip_length _ _ hne hall
  have hfp : find_pair ((pyZip input_bitmaps).reverse) = (0, 0) := by
    apply find_pair_eq_zero_of_none
    rw [hvlen]
    apply List.find?_eq_none.mpr
    intro p hp
    have hb := mem_pairList (2 ^ n) p hp
    intro hEq
    rw [vals_getD input_bitmaps (2 ^ n) p.1 hne hall (by omega),
      vals_getD input_bitmaps (2 ^ n) p.2 hne hall (by omega)] at hEq
    exact hdist (2 ^ n - 1 - p.1) (by omega) (2 ^ n - 1 - p.2) (by omega)
      (by omega) (beq_iff_eq.mp hEq)
  refine ⟨hfp, ?_⟩
  obtain ⟨b, rest, rfl⟩ : ∃ b rest, input_bitmaps = b :: rest := by
    match input_bitmaps, hne with
    | b :: rest, _ => exact ⟨b, rest, rfl⟩
  rw [compute_mask_eq, hfp]
  show binary_repr (0 ^^^ 0) (intLog2 b.length) = List.replicate n '0'
  rw [Nat.zero_xor, hall b (List.mem_cons_self b rest), intLog2_two_pow]
  exact binary_repr_zero n hn

/-- Witness for C4: the notebook's 1-to-1 table has pairwise distinct columns,
`find_pair` returns `(0, 0)`, and the mask is `000`. -/
theorem compute_mask_no_collision_witness :
    find_pair ((pyZip bitmaps2).reverse) = (0, 0) ∧
    compute_mask bitmaps2 = List.replicate 3 '0' :=
  compute_mask_no_collision 3 bitmaps2 (by decide) (by decide) (by decide)
    (by decide)

/-- Claim C10: reversal cancellation — complementing both members of a pair of
indices below `2^n` preserves their XOR, so although `find_pair` scans the
column list reversed and returns reversed-list indices `k1, k2`, the value
`compute_mask` returns is the binary representation of the XOR of the
original truth-table input values `2^n−1−k1` and `2^n−1−k2` of the selected
colliding column pair. -/
theorem compute_mask_reversal_cancellation (n : Nat)
    (input_bitmaps : List (List Char)) (hne : input_bitmaps ≠ [])
    (hall : ∀ b ∈ input_bitmaps, b.length = 2 ^ n) :
    (2 ^ n - 1 - (find_pair ((pyZip input_bitmaps).reverse)).1) ^^^
      (2 ^ n - 1 - (find_pair ((pyZip input_bitmaps).reverse)).2) =
      (find_pair ((pyZip input_bitmaps).reverse)).1 ^^^
        (find_pair ((pyZip input_bitmaps).reverse)).2 ∧
    compute_mask input_bitmaps =
      binary_repr
        ((2 ^ n - 1 - (find_pair ((pyZip input_bitmaps).reverse)).1) ^^^
          (2 ^ n - 1 - (find_pair ((pyZip input_bitmaps).reverse)).2)) n := by
  have hN : 0 < 2 ^ n := Nat.pos_pow_of_pos n (by norm_num)
  have hvlen : ((pyZip input_bitmaps).reverse).length = 2 ^ n := by
    rw [List.length_reverse]; exact pyZip_length _ _ hne hall
  have hlt := find_pair_lt ((pyZip input_bitmaps).reverse)
    (by rw [hvlen]; exact hN)
  rw [hvlen] at hlt
  have hxor := xor_complement n
    (find_pair ((pyZip input_bitmaps).reverse)).1
    (find_pair ((pyZip input_bitmaps).reverse)).2 (by omega) hlt.2
  refine ⟨hxor, ?_⟩
  rw [hxor]
  obtain ⟨b, rest, rfl⟩ : ∃ b rest, input_bitmaps = b :: rest := by
    match input_bitmaps, hne with
    | b :: rest, _ => exact ⟨b, rest, rfl⟩
  rw [compute_mask_eq]
  simp only [List.headD_cons]
  rw [hall b (List.mem_cons_self b rest), intLog2_two_pow]

/-- Witness for C10: on the notebook's 2-to-1 table the selected reversed-list
pair and its complemented original input values have the same XOR, and
`compute_mask` reports its binary representation. -/
theorem compute_mask_reversal_cancellation_witness :
    (2 ^ 3 - 1 - (find_pair ((pyZip bitmaps1).reverse)).1) ^^^
      (2 ^ 3 - 1 - (find_pair ((pyZip bitmaps1).reverse)).2) =
      (find_pair ((pyZip bitmaps1).reverse)).1 ^^^
        (find_pair ((pyZip bitmaps1).reverse)).2 ∧
    compute_mask bitmaps1 =
      binary_repr
        ((2 ^ 3 - 1 - (find_pair ((pyZip bitmaps1).reverse)).1) ^^^
          (2 ^ 3 - 1 - (find_pair ((pyZip bitmaps1).reverse)).2)) 3 :=
  compute_mask_reversal_cancellation 3 bitmaps1 (by decide) (by decide)

end SimonTutorial
